import Mathlib

/-
  Verification development for the line-targeted maintenance scripts of the
  repository: the case-block brace patcher from fix-case-blocks.py and the
  blank-line cleanup of fix-no-explicit-any.py, shallowly embedded over
  lists of line strings. Lines are modelled exactly as Python readlines
  produces them, each string normally ending in a newline character.
-/

namespace Sonigraph

/-- Word characters of the ASCII word-boundary semantics used by the regexes in the scripts. -/
def isWordChar (c : Char) : Bool := c.isAlphanum || c == '_'

/-- Whitespace characters: the Python default for str.strip and the regex whitespace class, on ASCII. -/
def isWs (c : Char) : Bool :=
  c == ' ' || c == '\t' || c == '\n' || c == '\r' || c == Char.ofNat 11 || c == Char.ofNat 12

/-- Opening curly brace character. -/
def openBrace : Char := Char.ofNat 123

/-- Closing curly brace character. -/
def closeBrace : Char := Char.ofNat 125

/-- Single quote character, used to build test strings. -/
def sq : String := String.mk [Char.ofNat 39]

/-- Python str.rstrip restricted to a character predicate: remove the maximal suffix satisfying p. -/
def rstripP (p : Char → Bool) : List Char → List Char
  | [] => []
  | c :: rest =>
    let r := rstripP p rest
    if r.isEmpty then (if p c then [] else [c]) else c :: r

/-- Number of leading whitespace characters of a line, as computed by len of line minus len of lstrip. -/
def indentOf (s : String) : Nat := (s.data.takeWhile isWs).length

/-- Boolean list prefix test. -/
def prefixOfL : List Char → List Char → Bool
  | [], _ => true
  | _ :: _, [] => false
  | a :: ra, b :: rb => a == b && prefixOfL ra rb

/-- Membership of a character in a character list, Boolean valued. -/
def containsCharL (x : Char) : List Char → Bool
  | [] => false
  | c :: r => c == x || containsCharL x r

/-- Head shape of a case label after stripping leading whitespace: the four letters of case then a whitespace character. -/
def matchCaseTail : List Char → Bool
  | c1 :: c2 :: c3 :: c4 :: c5 :: _ =>
    c1 == 'c' && c2 == 'a' && c3 == 's' && c4 == 'e' && isWs c5
  | _ => false

/-- Test for the regex matching a case label: optional whitespace, the word case, then whitespace. -/
def matchCaseL (l : List Char) : Bool := matchCaseTail (l.dropWhile isWs)

/-- String version of the case-label test used by re dot match in the source. -/
def matchCase (s : String) : Bool := matchCaseL s.data

/-- Presence of an opening brace anywhere in the line. -/
def hasBrace (s : String) : Bool := containsCharL openBrace s.data

/-- Keyword occurrence check: the keyword is a prefix here and the following character is not a word character. -/
def declTailOk (kw : List Char) (l : List Char) : Bool :=
  prefixOfL kw l && !(isWordChar (l.getD kw.length ' '))

/-- Scan for a whole-word occurrence of const, let or var; the flag records whether the previous character was a word character. -/
def searchDeclAux : Bool → List Char → Bool
  | _, [] => false
  | prevWord, c :: r =>
    (!prevWord &&
      (declTailOk "const".data (c :: r) || declTailOk "let".data (c :: r) ||
        declTailOk "var".data (c :: r))) ||
    searchDeclAux (isWordChar c) r

/-- Detection gate of the patcher: the line contains const, let or var as a whole word. -/
def hasDecl (s : String) : Bool := searchDeclAux false s.data

/-- Head shape of a default label after stripping leading whitespace: the word default, optional whitespace, then a colon. -/
def defaultTail : List Char → Bool
  | c1 :: c2 :: c3 :: c4 :: c5 :: c6 :: c7 :: r =>
    c1 == 'd' && c2 == 'e' && c3 == 'f' && c4 == 'a' && c5 == 'u' && c6 == 'l' && c7 == 't' &&
      (match r.dropWhile isWs with
       | ':' :: _ => true
       | _ => false)
  | _ => false

/-- Head shape of a closing brace line after stripping leading whitespace. -/
def braceTail : List Char → Bool
  | c :: _ => c == closeBrace
  | [] => false

/-- Test for the block-boundary regex: optional whitespace then a case label, a default label, or a closing brace. -/
def matchBoundaryL (l : List Char) : Bool :=
  matchCaseTail (l.dropWhile isWs) || defaultTail (l.dropWhile isWs) ||
    braceTail (l.dropWhile isWs)

/-- String version of the block-boundary test. -/
def matchBoundary (s : String) : Bool := matchBoundaryL s.data

/-- Tail shape after an early-exit keyword: whitespace, at most one semicolon, whitespace, end of line. -/
def semiTailOk (l : List Char) : Bool :=
  match l.dropWhile isWs with
  | [] => true
  | c :: r => c == ';' && (r.dropWhile isWs).isEmpty

/-- Early-exit keyword occurrence starting here with a valid tail. -/
def breakRetAt (kw : List Char) (l : List Char) : Bool :=
  prefixOfL kw l && semiTailOk (l.drop kw.length)

/-- Scan for the early-exit regex: a word-bounded break or return followed only by an optional semicolon and whitespace. -/
def searchBreakRetAux : Bool → List Char → Bool
  | _, [] => false
  | prevWord, c :: r =>
    (!prevWord && (breakRetAt "break".data (c :: r) || breakRetAt "return".data (c :: r))) ||
    searchBreakRetAux (isWordChar c) r

/-- String version of the early-exit test. -/
def matchBreakRet (s : String) : Bool := searchBreakRetAux false s.data

/-- Rewritten anchor line: the right-stripped case line with a space, an opening brace and a newline appended. -/
def newCaseLineOf (s : String) : String :=
  String.mk (rstripP isWs s.data ++ [' ', openBrace, '\n'])

/-- Inserted closing line: four columns deeper than the anchor indentation, a closing brace and a newline. -/
def closeLineOf (indent : Nat) : String :=
  String.mk (List.replicate (indent + 4) ' ' ++ [closeBrace, '\n'])

/-- Python list insert: insert at the given position, appending when the position is beyond the end. -/
def insertAt {α : Type} : Nat → α → List α → List α
  | 0, x, l => x :: l
  | _ + 1, x, [] => [x]
  | n + 1, x, a :: l => a :: insertAt n x l

/-- Backward scan for the nearest case label at index j or below, mirroring the while loop of the source. -/
def findCaseFrom (lines : List String) : Nat → Option Nat
  | 0 => if matchCase (lines.getD 0 "") then some 0 else none
  | j + 1 => if matchCase (lines.getD (j + 1) "") then some (j + 1) else findCaseFrom lines j

/-- Forward scan for the block end, with explicit fuel so that the kernel can evaluate it. -/
def findEndAux (lines : List String) (lvl : Nat) : Nat → Nat → Nat
  | 0, e => e
  | fuel + 1, e =>
    if e < lines.length then
      let nx := lines.getD e ""
      if decide (indentOf nx ≤ lvl) && matchBoundary nx then e
      else if matchBreakRet nx then e + 1
      else findEndAux lines lvl fuel (e + 1)
    else e

/-- Forward scan for the block end starting at index e, as in the while loop of the source. -/
def findEnd (lines : List String) (lvl e : Nat) : Nat :=
  findEndAux lines lvl (lines.length - e) e

/-- State of one patch pass: the current line list, the modified-line set and the change count. -/
structure PatchState where
  lines : List String
  modified : List Nat
  changes : Nat

/-- Contiguous range of k natural numbers starting at s. -/
def natRange (s : Nat) : Nat → List Nat
  | 0 => []
  | k + 1 => s :: natRange (s + 1) k

/-- All precondition checks of the patcher for one 1-based target line; returns the anchor index and end index when a patch will happen. Target 0 is treated as a skip: with the negative indexing of Python such a target never completes the backward case search. -/
def patchGate (L : List String) (M : List Nat) (t : Nat) : Option (Nat × Nat) :=
  if t = 0 ∨ L.length < t ∨ t ∈ M then none
  else if hasDecl (L.getD (t - 1) "") then
    match (if t - 1 = 0 then none else findCaseFrom L (t - 2)) with
    | none => none
    | some c =>
      if hasBrace (L.getD c "") || (decide (c + 1 < L.length) && hasBrace (L.getD (c + 1) "")) then
        none
      else some (c, findEnd L (indentOf (L.getD c "")) t)
  else none

/-- The mutation step of the patcher: rewrite the anchor line and insert the closing line at the end index. -/
def applyPatch (L : List String) (c e : Nat) : List String :=
  insertAt e (closeLineOf (indentOf (L.getD c ""))) (L.set c (newCaseLineOf (L.getD c "")))

/-- Processing of one target line: skip, or patch and record the covered line numbers. -/
def processTarget (st : PatchState) (t : Nat) : PatchState :=
  match patchGate st.lines st.modified t with
  | none => st
  | some (c, e) =>
    { lines := applyPatch st.lines c e
      modified := st.modified ++ natRange (c + 1) (e + 2 - c)
      changes := st.changes + 1 }

/-- Ordered insertion into an ascending list. -/
def insertSorted (n : Nat) : List Nat → List Nat
  | [] => [n]
  | m :: ms => if n ≤ m then n :: m :: ms else m :: insertSorted n ms

/-- Ascending sort of the target list, the semantics of Python sorted on integers. -/
def sortAsc : List Nat → List Nat
  | [] => []
  | n :: ns => insertSorted n (sortAsc ns)

/-- Left fold of the per-target step over a target list. -/
def runTargets (st : PatchState) (ts : List Nat) : PatchState := ts.foldl processTarget st

/-- The pure core of fix_case_block from fix-case-blocks.py: the final line list and the returned change count. -/
def fix_case_block (lines : List String) (nums : List Nat) : List String × Nat :=
  let st := runTargets ⟨lines, [], 0⟩ (sortAsc nums)
  (st.lines, st.changes)

/-- Outcome of one fix_case_block call including its file effects: the disk content afterwards, whether a write happened, whether a missing file was reported, and the returned count. -/
structure FileResult where
  disk : Option (List String)
  wrote : Bool
  reportedMissing : Bool
  count : Nat

/-- Driver-visible behavior of fix_case_block on one file: a missing file is reported and counted as zero, and the file is written back exactly when the change count is positive. -/
def fix_case_block_io (file : Option (List String)) (nums : List Nat) : FileResult :=
  match file with
  | none => ⟨none, false, true, 0⟩
  | some lines =>
    let r := fix_case_block lines nums
    if 0 < r.2 then ⟨some r.1, true, false, r.2⟩ else ⟨some lines, false, false, r.2⟩

/-- The batch driver main: runs the patcher over each table entry and sums the returned counts. -/
def runBatch (entries : List (Option (List String) × List Nat)) : Nat :=
  (entries.map (fun p => (fix_case_block_io p.1 p.2).count)).sum

/-
  Embedding of fix_file from fix-no-explicit-any.py.
-/

/-- Boolean substring test on character lists, the Python in operator on strings. -/
def isSubstrL (pat : List Char) : List Char → Bool
  | [] => prefixOfL pat []
  | c :: r => prefixOfL pat (c :: r) || isSubstrL pat r

/-- String version of the substring test. -/
def isSubstr (pat s : String) : Bool := isSubstrL pat.data s.data

/-- Word-character test at an index of a list, out-of-range counting as not a word character. -/
def wordAt (l : List Char) (i : Nat) : Bool := isWordChar (l.getD i ' ')

/-- Word-boundary test between positions i minus one and i of a list. -/
def boundaryAt (l : List Char) (i : Nat) : Bool :=
  (if i = 0 then false else wordAt l (i - 1)) != wordAt l i

/-- Regex match of a word-bounded literal pattern at position i. -/
def matchesAtL (pat l : List Char) (i : Nat) : Bool :=
  prefixOfL pat (l.drop i) && boundaryAt l i && boundaryAt l (i + pat.length)

/-- Leftmost position at which the word-bounded pattern matches; the first argument is the still unscanned suffix used as structural fuel. -/
def findMatchAux (pat full : List Char) : List Char → Nat → Option Nat
  | [], i => if matchesAtL pat full i then some i else none
  | _ :: rest, i => if matchesAtL pat full i then some i else findMatchAux pat full rest (i + 1)

/-- The re.sub call of the source with count one: replace the leftmost word-bounded occurrence of the old type with the new type. -/
def subWordOnce (oldT newT s : String) : String :=
  match findMatchAux oldT.data s.data s.data 0 with
  | none => s
  | some i => String.mk (s.data.take i ++ newT.data ++ s.data.drop (i + oldT.data.length))

/-- The eslint disable marker searched for on the comment line. -/
def marker : String := "eslint-disable-next-line @typescript-eslint/no-explicit-any"

/-- State of one fix_file pass. -/
structure AnyState where
  lines : List String
  changes : Nat
  needsTone : Bool

/-- Processing of one table entry of fix_file: blank out the marker comment line and retype the following code line. Entry line number 0 is treated as a skip; the table of the source only contains positive line numbers. -/
def processFix (st : AnyState) (entry : Nat × String × String) : AnyState :=
  let cl := entry.1
  let oldT := entry.2.1
  let newT := entry.2.2
  if cl = 0 ∨ st.lines.length < cl then st
  else if isSubstr marker (st.lines.getD (cl - 1) "") then
    let lines1 := st.lines.set (cl - 1) ""
    if cl < lines1.length then
      let orig := lines1.getD cl ""
      let modified := subWordOnce oldT newT orig
      if modified ≠ orig then
        { lines := lines1.set cl modified
          changes := st.changes + 2
          needsTone := st.needsTone || isSubstr "ToneAudioNode" newT }
      else { st with lines := lines1, changes := st.changes + 1 }
    else { st with lines := lines1, changes := st.changes + 1 }
  else st

/-- Detection of an import line from the tone module, single or double quoted. -/
def isToneImport (s : String) : Bool :=
  isSubstr ("from " ++ sq ++ "tone" ++ sq) s || isSubstr "from \"tone\"" s

/-- Scan of the first fifty lines for a tone import; returns its index and whether it already names ToneAudioNode. -/
def findToneAux : List String → Nat → Option (Nat × Bool)
  | [], _ => none
  | l :: r, i =>
    if isToneImport l then some (i, isSubstr "ToneAudioNode" l) else findToneAux r (i + 1)

/-- The tone import search of the source over the first fifty lines. -/
def findToneImport (lines : List String) : Option (Nat × Bool) :=
  findToneAux (lines.take 50) 0

/-- Python str.strip on both ends. -/
def stripBoth (l : List Char) : List Char := rstripP isWs (l.dropWhile isWs)

/-- The destructured-import edit of the source: right-strip whitespace, semicolons and whitespace again, and if the result ends in a closing brace splice ToneAudioNode into it. -/
def editBraceImport (il : String) : Option String :=
  let m := rstripP isWs (rstripP (fun c => c == ';') (rstripP isWs il.data))
  match m.getLast? with
  | some c =>
    if c == closeBrace then
      some (String.mk (m.dropLast ++ (", ToneAudioNode " ++ String.mk [closeBrace] ++ ";\n").data))
    else none
  | none => none

/-- The import-fixing phase of fix_file, run when a replacement introduced ToneAudioNode. -/
def applyToneImport (st : AnyState) : AnyState :=
  if st.needsTone then
    match findToneImport st.lines with
    | none => st
    | some (i, hasIt) =>
      if hasIt then st
      else
        let il := st.lines.getD i ""
        if prefixOfL ("import " ++ String.mk [openBrace]).data (stripBoth il.data) then
          match editBraceImport il with
          | some newLine => { st with lines := st.lines.set i newLine, changes := st.changes + 1 }
          | none => st
        else if isSubstr "import *" il then
          { st with
            lines :=
              insertAt (i + 1)
                ("import " ++ String.mk [openBrace] ++ " ToneAudioNode " ++
                  String.mk [closeBrace] ++ " from " ++ sq ++ "tone" ++ sq ++ ";\n")
                st.lines
            changes := st.changes + 1 }
        else st
  else st

/-- Whitespace-only test for a line, the Python strip-then-compare-empty check. -/
def isBlankLine (s : String) : Bool := (s.data.dropWhile isWs).isEmpty

/-- The blank-line cleanup loop of fix_file: drop a blank line when the previously kept line was blank. -/
def cleanLines : Bool → List String → List String
  | _, [] => []
  | prev, l :: r =>
    if isBlankLine l && prev then cleanLines prev r
    else l :: cleanLines (isBlankLine l) r

/-- The in-memory transformation of fix_file before the conditional write. -/
def fix_file_core (lines : List String) (lineMap : List (Nat × String × String)) : AnyState :=
  applyToneImport (lineMap.foldl processFix ⟨lines, 0, false⟩)

/-- The fix_file routine of fix-no-explicit-any.py: the written file content, if any, and the returned change count. -/
def fix_file (lines : List String) (lineMap : List (Nat × String × String)) :
    Option (List String) × Nat :=
  let st := fix_file_core lines lineMap
  if 0 < st.changes then (some (cleanLines false st.lines), st.changes) else (none, st.changes)

/-
  Basic lemmas about the list operations of the embedding.
-/

theorem length_insertAt {α : Type} (n : Nat) (x : α) (l : List α) :
    (insertAt n x l).length = l.length + 1 := by
  induction n generalizing l with
  | zero => simp [insertAt]
  | succ n ih =>
    cases l with
    | nil => simp [insertAt]
    | cons a r => simp [insertAt, ih]

theorem getD_insertAt_lt {α : Type} (n i : Nat) (x d : α) (l : List α)
    (h1 : i < n) (h2 : i < l.length) : (insertAt n x l).getD i d = l.getD i d := by
  induction n generalizing i l with
  | zero => omega
  | succ n ih =>
    cases l with
    | nil => simp at h2
    | cons a r =>
      cases i with
      | zero => simp [insertAt]
      | succ i =>
        simp only [insertAt, List.getD_cons_succ]
        exact ih i r (by omega) (by simpa using h2)

theorem getD_insertAt_self {α : Type} (n : Nat) (x d : α) (l : List α)
    (h : n ≤ l.length) : (insertAt n x l).getD n d = x := by
  induction n generalizing l with
  | zero => simp [insertAt]
  | succ n ih =>
    cases l with
    | nil => simp at h
    | cons a r =>
      simp only [insertAt, List.getD_cons_succ]
      exact ih r (by simpa using h)

theorem getD_insertAt_ge {α : Type} (n i : Nat) (x d : α) (l : List α)
    (h1 : n ≤ i) : (insertAt n x l).getD (i + 1) d = l.getD i d := by
  induction n generalizing i l with
  | zero => simp [insertAt]
  | succ n ih =>
    cases l with
    | nil =>
      cases i with
      | zero => omega
      | succ i => simp [insertAt]
    | cons a r =>
      cases i with
      | zero => omega
      | succ i =>
        simp only [insertAt, List.getD_cons_succ]
        exact ih i r (by omega)

theorem getD_set_ne {α : Type} (l : List α) (j i : Nat) (x d : α) (h : i ≠ j) :
    (l.set j x).getD i d = l.getD i d := by
  induction l generalizing i j with
  | nil => simp
  | cons a r ih =>
    cases j with
    | zero =>
      cases i with
      | zero => omega
      | succ i => simp [List.set]
    | succ j =>
      cases i with
      | zero => simp [List.set]
      | succ i =>
        simp only [List.set, List.getD_cons_succ]
        exact ih j i (by omega)

theorem getD_set_self {α : Type} (l : List α) (j : Nat) (x d : α) (h : j < l.length) :
    (l.set j x).getD j d = x := by
  induction l generalizing j with
  | nil => simp at h
  | cons a r ih =>
    cases j with
    | zero => simp [List.set]
    | succ j =>
      simp only [List.set, List.getD_cons_succ]
      exact ih j (by simpa using h)

theorem mem_natRange (n s k : Nat) : n ∈ natRange s k ↔ s ≤ n ∧ n < s + k := by
  induction k generalizing s with
  | zero => simp [natRange]
  | succ k ih =>
    simp only [natRange, List.mem_cons, ih]
    omega

theorem mem_insertSorted (x n : Nat) (l : List Nat) :
    x ∈ insertSorted n l ↔ x = n ∨ x ∈ l := by
  induction l with
  | nil => simp [insertSorted]
  | cons m ms ih =>
    by_cases h : n ≤ m
    · simp [insertSorted, h]
    · simp only [insertSorted, if_neg h, List.mem_cons, ih]
      tauto

theorem mem_sortAsc (x : Nat) (l : List Nat) : x ∈ sortAsc l ↔ x ∈ l := by
  induction l with
  | nil => simp [sortAsc]
  | cons n ns ih => simp [sortAsc, mem_insertSorted, ih]

theorem runTargets_cons (st : PatchState) (t : Nat) (ts : List Nat) :
    runTargets st (t :: ts) = runTargets (processTarget st t) ts := rfl

/-
  Claim C9: length bookkeeping of the patch pass.
-/

theorem processTarget_length (st : PatchState) (t : Nat) :
    (processTarget st t).lines.length + st.changes
      = st.lines.length + (processTarget st t).changes := by
  cases h : patchGate st.lines st.modified t with
  | none => simp [processTarget, h]
  | some ce =>
    obtain ⟨c, e⟩ := ce
    simp only [processTarget, h]
    simp [applyPatch, length_insertAt]
    omega

theorem runTargets_length (ts : List Nat) : ∀ st : PatchState,
    (runTargets st ts).lines.length + st.changes
      = st.lines.length + (runTargets st ts).changes := by
  induction ts with
  | nil => intro st; rfl
  | cons t ts ih =>
    intro st
    rw [runTargets_cons]
    have h1 := processTarget_length st t
    have h2 := ih (processTarget st t)
    omega

/-- Claim C9: every patched block rewrites one line in place and inserts exactly one new line, so the output length is the input length plus the returned count. -/
theorem c9_length_invariant (lines : List String) (nums : List Nat) :
    (fix_case_block lines nums).1.length = lines.length + (fix_case_block lines nums).2 := by
  have h := runTargets_length (sortAsc nums) ⟨lines, [], 0⟩
  simpa [fix_case_block] using h

/-
  Claim C2: the four-line scenario from the spec.
-/

/-- Scenario input: a case label line, a declaration, a call, and a break, as in the spec. -/
def scenario1 : List String :=
  ["    case " ++ sq ++ "x" ++ sq ++ ":\n",
   "      const y = 1;\n",
   "      doSomething(y);\n",
   "      break;\n"]

/-- Expected scenario output: brace appended to the case line, closing line four columns deeper than the case line, inserted after the break line. -/
def scenario1Out : List String :=
  ["    case " ++ sq ++ "x" ++ sq ++ ": " ++ String.mk [openBrace] ++ "\n",
   "      const y = 1;\n",
   "      doSomething(y);\n",
   "      break;\n",
   "        " ++ String.mk [closeBrace] ++ "\n"]

/-- Claim C2: on the four-line case body with the target on the const line, the patcher appends an opening brace to the case line, inserts a closing line four columns deeper than the case line right after the break line, and reports exactly one change. -/
theorem c2_scenario_one_patch : fix_case_block scenario1 [2] = (scenario1Out, 1) := by
  decide

/-
  Claim C5: bounds safety.
-/

theorem processTarget_skip_oob (st : PatchState) (t : Nat) (h : st.lines.length < t) :
    processTarget st t = st := by
  have : patchGate st.lines st.modified t = none := by
    unfold patchGate
    rw [if_pos (Or.inr (Or.inl h))]
  simp [processTarget, this]

theorem runTargets_skip_all (ts : List Nat) : ∀ st : PatchState,
    (∀ n ∈ ts, st.lines.length < n) → runTargets st ts = st := by
  induction ts with
  | nil => intro st _; rfl
  | cons t ts ih =>
    intro st h
    rw [runTargets_cons, processTarget_skip_oob st t (h t (by simp))]
    exact ih st (fun n hn => h n (by simp [hn]))

/-- Claim C5, amended: when every listed target exceeds the line count of the file, the patcher leaves the line sequence unchanged and returns zero; in particular a lone target of 99999 on a 10-line file is a no-op. The original per-target claim fails when an earlier patch grows the file past an out-of-range target. -/
theorem c5_bounds_safety_amended (lines : List String) (nums : List Nat)
    (h : ∀ n ∈ nums, lines.length < n) : fix_case_block lines nums = (lines, 0) := by
  have hs : ∀ n ∈ sortAsc nums, lines.length < n := by
    intro n hn
    exact h n ((mem_sortAsc n nums).mp hn)
  unfold fix_case_block
  rw [runTargets_skip_all (sortAsc nums) ⟨lines, [], 0⟩ hs]

/-- Ten arbitrary lines for the bounds-safety scenario. -/
def tenLines : List String :=
  ["a\n", "b\n", "c\n", "d\n", "e\n", "f\n", "g\n", "h\n", "i\n", "j\n"]

/-- Witness for the amended bounds-safety claim: target 99999 on a 10-line file yields zero changes and an unchanged file. -/
theorem c5_witness :
    tenLines.length = 10 ∧ fix_case_block tenLines [99999] = (tenLines, 0) :=
  ⟨by decide, c5_bounds_safety_amended tenLines [99999] (by decide)⟩

/-- Input on which an out-of-range target mutates the file: the first patch inserts a line, growing the file to eight lines, so the target 8 is then in range and patches the second case block. -/
def oobInput : List String :=
  ["case A:\n",
   "  const x = 1;\n",
   "  break;\n",
   "case B:\n",
   "  filler\n",
   "  filler\n",
   "  const y = 2;\n"]

/-- Counterexample to claim C5 as stated: on a 7-line file, adding the target 8, which exceeds the line count, changes the result from one patch to two patches, so an out-of-range target is not always skipped without mutation. -/
theorem c5_out_of_range_counterexample :
    oobInput.length = 7 ∧
    (fix_case_block oobInput [2]).2 = 1 ∧
    (fix_case_block oobInput [2, 8]).2 = 2 ∧
    (fix_case_block oobInput [2, 8]).1.length = 9 := by
  decide

/-
  Lemmas about the backward case scan and the forward end scan.
-/

theorem findCaseFrom_some (lines : List String) :
    ∀ j c, findCaseFrom lines j = some c →
      c ≤ j ∧ matchCase (lines.getD c "") = true ∧
        ∀ i, c < i → i ≤ j → matchCase (lines.getD i "") = false := by
  intro j
  induction j with
  | zero =>
    intro c h
    by_cases h0 : matchCase (lines.getD 0 "") = true
    · rw [findCaseFrom, if_pos h0, Option.some_inj] at h
      subst h
      exact ⟨Nat.le_refl 0, h0, fun i hi hij => by omega⟩
    · rw [findCaseFrom, if_neg h0] at h
      exact absurd h (by simp)
  | succ j ih =>
    intro c h
    by_cases hj : matchCase (lines.getD (j + 1) "") = true
    · rw [findCaseFrom, if_pos hj, Option.some_inj] at h
      subst h
      exact ⟨Nat.le_refl _, hj, fun i hi hij => by omega⟩
    · rw [findCaseFrom, if_neg hj] at h
      obtain ⟨h1, h2, h3⟩ := ih c h
      refine ⟨by omega, h2, fun i hi hij => ?_⟩
      by_cases hij' : i ≤ j
      · exact h3 i hi hij'
      · have hi1 : i = j + 1 := by omega
        rw [hi1]
        simpa using hj

theorem findCaseFrom_eq_some (lines : List String) :
    ∀ j c, c ≤ j → matchCase (lines.getD c "") = true →
      (∀ i, c < i → i ≤ j → matchCase (lines.getD i "") = false) →
      findCaseFrom lines j = some c := by
  intro j
  induction j with
  | zero =>
    intro c hc hm _
    have hc0 : c = 0 := by omega
    subst hc0
    rw [findCaseFrom, if_pos hm]
  | succ j ih =>
    intro c hc hm hno
    by_cases hcj : c = j + 1
    · subst hcj
      rw [findCaseFrom, if_pos hm]
    · have hfalse : matchCase (lines.getD (j + 1) "") = false :=
        hno (j + 1) (by omega) (Nat.le_refl _)
      rw [findCaseFrom, if_neg (by rw [hfalse]; simp)]
      exact ih c (by omega) hm (fun i hi hij => hno i hi (by omega))

theorem findEndAux_ge (lines : List String) (lvl : Nat) :
    ∀ fuel e, e ≤ findEndAux lines lvl fuel e := by
  intro fuel
  induction fuel with
  | zero => intro e; exact Nat.le_refl e
  | succ fuel ih =>
    intro e
    simp only [findEndAux]
    split
    · split
      · exact Nat.le_refl e
      · split
        · omega
        · exact Nat.le_trans (by omega) (ih (e + 1))
    · exact Nat.le_refl e

theorem findEndAux_le (lines : List String) (lvl : Nat) :
    ∀ fuel e, e ≤ lines.length → findEndAux lines lvl fuel e ≤ lines.length := by
  intro fuel
  induction fuel with
  | zero => intro e h; exact h
  | succ fuel ih =>
    intro e h
    simp only [findEndAux]
    split
    · split
      · exact h
      · split
        · omega
        · exact ih (e + 1) (by omega)
    · exact h

theorem findEnd_ge (lines : List String) (lvl e : Nat) : e ≤ findEnd lines lvl e :=
  findEndAux_ge lines lvl _ e

theorem findEnd_le (lines : List String) (lvl e : Nat) (h : e ≤ lines.length) :
    findEnd lines lvl e ≤ lines.length :=
  findEndAux_le lines lvl _ e h

/-
  Inversion of the patch gate.
-/

theorem patchGate_some_inv (L : List String) (M : List Nat) (t c e : Nat)
    (h : patchGate L M t = some (c, e)) :
    t ≠ 0 ∧ t ≤ L.length ∧ t ∉ M ∧ hasDecl (L.getD (t - 1) "") = true ∧
      t - 1 ≠ 0 ∧ findCaseFrom L (t - 2) = some c ∧
      hasBrace (L.getD c "") = false ∧
      (c + 1 < L.length → hasBrace (L.getD (c + 1) "") = false) ∧
      e = findEnd L (indentOf (L.getD c "")) t := by
  unfold patchGate at h
  by_cases h1 : t = 0 ∨ L.length < t ∨ t ∈ M
  · rw [if_pos h1] at h
    exact absurd h (by simp)
  · rw [if_neg h1] at h
    push_neg at h1
    obtain ⟨ht0, hlen, hmem⟩ := h1
    by_cases h2 : hasDecl (L.getD (t - 1) "") = true
    · rw [if_pos h2] at h
      by_cases h3 : t - 1 = 0
      · rw [if_pos h3] at h
        exact absurd h (by simp)
      · rw [if_neg h3] at h
        cases hfc : findCaseFrom L (t - 2) with
        | none =>
          rw [hfc] at h
          exact absurd h (by simp)
        | some c2 =>
          rw [hfc] at h
          simp only at h
          by_cases h4 :
              (hasBrace (L.getD c2 "") ||
                (decide (c2 + 1 < L.length) && hasBrace (L.getD (c2 + 1) ""))) = true
          · rw [if_pos h4] at h
            exact absurd h (by simp)
          · rw [if_neg h4] at h
            simp only [Option.some_inj, Prod.mk.injEq] at h
            obtain ⟨hc, he⟩ := h
            subst hc
            have h4' := h4
            simp only [Bool.or_eq_true, not_or, Bool.and_eq_true, decide_eq_true_eq] at h4'
            obtain ⟨hbr1, hbr2⟩ := h4'
            have hbr1' : hasBrace (L.getD c2 "") = false := by simpa using hbr1
            have hbr2' : c2 + 1 < L.length → hasBrace (L.getD (c2 + 1) "") = false := by
              intro hlt
              by_contra hbb
              exact hbr2 ⟨hlt, by simpa using hbb⟩
            exact ⟨ht0, hlen, hmem, h2, h3, rfl, hbr1', hbr2', he.symm⟩
    · rw [if_neg h2] at h
      exact absurd h (by simp)

/-
  Lemmas about right stripping and the rewritten anchor line.
-/

theorem rstripP_cons (p : Char → Bool) (c : Char) (m : List Char) :
    rstripP p (c :: m) =
      if (rstripP p m).isEmpty then (if p c then [] else [c]) else c :: rstripP p m := rfl

theorem rstripP_nil_all (p : Char → Bool) :
    ∀ l : List Char, rstripP p l = [] → ∀ c ∈ l, p c = true := by
  intro l
  induction l with
  | nil => intro _ c hc; simp at hc
  | cons a r ih =>
    intro h c hc
    rw [rstripP_cons] at h
    by_cases hr : (rstripP p r).isEmpty
    · rw [if_pos hr] at h
      by_cases ha : p a = true
      · rcases List.mem_cons.mp hc with hh | hh
        · subst hh; exact ha
        · exact ih (List.isEmpty_iff.mp hr) c hh
      · rw [if_neg ha] at h
        simp at h
    · rw [if_neg hr] at h
      simp at h

theorem dropWhile_eq_nil_of_all (p : Char → Bool) :
    ∀ l : List Char, (∀ c ∈ l, p c = true) → l.dropWhile p = [] := by
  intro l
  induction l with
  | nil => intro _; rfl
  | cons a r ih =>
    intro h
    rw [List.dropWhile_cons, if_pos (h a (by simp))]
    exact ih (fun c hc => h c (by simp [hc]))

theorem matchCaseL_ws_cons (c : Char) (l : List Char) (hc : isWs c = true) :
    matchCaseL (c :: l) = matchCaseL l := by
  simp [matchCaseL, List.dropWhile_cons, hc]

theorem matchCaseL_rstrip_append (l : List Char) (rest : List Char)
    (h : matchCaseL l = true) :
    matchCaseL (rstripP isWs l ++ (' ' :: rest)) = true := by
  induction l with
  | nil => simp [matchCaseL, matchCaseTail] at h
  | cons c r ih =>
    by_cases hc : isWs c = true
    · have h' : matchCaseL r = true := by rwa [matchCaseL_ws_cons c r hc] at h
      rw [rstripP_cons]
      by_cases hr : (rstripP isWs r).isEmpty
      · exfalso
        have hall := rstripP_nil_all isWs r (List.isEmpty_iff.mp hr)
        have hdrop := dropWhile_eq_nil_of_all isWs r hall
        rw [matchCaseL, hdrop] at h'
        simp [matchCaseTail] at h'
      · rw [if_neg hr, List.cons_append, matchCaseL_ws_cons c _ hc]
        exact ih h'
    · have hdrop : (c :: r).dropWhile isWs = c :: r := by
        rw [List.dropWhile_cons, if_neg (by simp [hc])]
      rw [matchCaseL, hdrop] at h
      match r, h with
      | c2 :: c3 :: c4 :: c5 :: r5, h =>
        simp only [matchCaseTail, Bool.and_eq_true, beq_iff_eq] at h
        obtain ⟨⟨⟨⟨hc1, hc2⟩, hc3⟩, hc4⟩, hc5⟩ := h
        subst hc1; subst hc2; subst hc3; subst hc4
        by_cases h5 : (rstripP isWs (c5 :: r5)).isEmpty
        · have hstrip : rstripP isWs ('c' :: 'a' :: 's' :: 'e' :: c5 :: r5) =
              ['c', 'a', 's', 'e'] := by
            rw [rstripP_cons]
            rw [show rstripP isWs ('a' :: 's' :: 'e' :: c5 :: r5) = ['a', 's', 'e'] from ?_]
            · simp
            · rw [rstripP_cons]
              rw [show rstripP isWs ('s' :: 'e' :: c5 :: r5) = ['s', 'e'] from ?_]
              · simp
              · rw [rstripP_cons]
                rw [show rstripP isWs ('e' :: c5 :: r5) = ['e'] from ?_]
                · simp
                · rw [rstripP_cons, if_pos h5]
                  simp [isWs]
          rw [hstrip]
          simp only [matchCaseL]
          rw [show (['c', 'a', 's', 'e'] ++ (' ' :: rest)).dropWhile isWs =
                'c' :: 'a' :: 's' :: 'e' :: ' ' :: rest from ?_]
          · simp [matchCaseTail, isWs]
          · rw [List.cons_append, List.dropWhile_cons, if_neg (by simp [hc])]
            simp
        · have h5ne : ¬(rstripP isWs (c5 :: r5)).isEmpty := h5
          have hstrip : rstripP isWs ('c' :: 'a' :: 's' :: 'e' :: c5 :: r5) =
              'c' :: 'a' :: 's' :: 'e' :: rstripP isWs (c5 :: r5) := by
            have hne1 : ¬(rstripP isWs ('e' :: c5 :: r5)).isEmpty := by
              rw [rstripP_cons, if_neg h5ne]
              simp
            have hne2 : ¬(rstripP isWs ('s' :: 'e' :: c5 :: r5)).isEmpty := by
              rw [rstripP_cons, if_neg hne1]
              simp
            have hne3 : ¬(rstripP isWs ('a' :: 's' :: 'e' :: c5 :: r5)).isEmpty := by
              rw [rstripP_cons, if_neg hne2]
              simp
            rw [rstripP_cons, if_neg hne3, rstripP_cons, if_neg hne2,
              rstripP_cons, if_neg hne1, rstripP_cons, if_neg h5ne]
          rw [hstrip]
          have h5shape : rstripP isWs (c5 :: r5) = c5 :: rstripP isWs r5 := by
            rw [rstripP_cons] at h5ne ⊢
            by_cases hrr : (rstripP isWs r5).isEmpty
            · rw [if_pos hrr] at h5ne ⊢
              rw [if_pos hc5] at h5ne
              simp at h5ne
            · rw [if_neg hrr]
          rw [h5shape]
          simp only [matchCaseL, List.cons_append]
          rw [show ('c' :: 'a' :: 's' :: 'e' :: c5 :: (rstripP isWs r5 ++ ' ' :: rest)).dropWhile
                isWs = 'c' :: 'a' :: 's' :: 'e' :: c5 :: (rstripP isWs r5 ++ ' ' :: rest) from ?_]
          · simp [matchCaseTail, hc5]
          · rw [List.dropWhile_cons, if_neg (by simp [hc])]
      | [], h => simp [matchCaseTail] at h
      | [c2], h => simp [matchCaseTail] at h
      | [c2, c3], h => simp [matchCaseTail] at h
      | [c2, c3, c4], h => simp [matchCaseTail] at h

theorem containsCharL_append (x : Char) (a b : List Char) :
    containsCharL x (a ++ b) = (containsCharL x a || containsCharL x b) := by
  induction a with
  | nil => simp [containsCharL]
  | cons c r ih => simp [containsCharL, ih, Bool.or_assoc]

theorem matchCase_newCaseLineOf (s : String) (h : matchCase s = true) :
    matchCase (newCaseLineOf s) = true := by
  have := matchCaseL_rstrip_append s.data [openBrace, '\n'] h
  simpa [matchCase, newCaseLineOf] using this

theorem hasBrace_newCaseLineOf (s : String) : hasBrace (newCaseLineOf s) = true := by
  simp only [hasBrace, newCaseLineOf]
  rw [containsCharL_append]
  simp [containsCharL]

/-
  Claim C3: conservativeness.
-/

theorem filter_set_dropped (q : String → Bool) :
    ∀ (l : List String) (j : Nat) (x : String), q x = false → q (l.getD j "") = false →
      (l.set j x).filter q = l.filter q := by
  intro l
  induction l with
  | nil => intro j x _ _; rfl
  | cons a r ih =>
    intro j x hx hj
    cases j with
    | zero =>
      have ha : q a = false := by simpa using hj
      simp [List.set, List.filter_cons, ha, hx]
    | succ j =>
      have hj' : q (r.getD j "") = false := by simpa using hj
      simp only [List.set, List.filter_cons]
      rw [ih j x hx hj']

theorem sublist_insertAt {α : Type} : ∀ (n : Nat) (x : α) (l : List α), l.Sublist (insertAt n x l) := by
  intro n
  induction n with
  | zero => intro x l; exact List.Sublist.cons x (List.Sublist.refl l)
  | succ n ih =>
    intro x l
    cases l with
    | nil => exact List.nil_sublist _
    | cons a r => exact List.Sublist.cons₂ a (ih x r)

theorem filter_noncase_step (st : PatchState) (t : Nat) :
    (st.lines.filter (fun s => !matchCase s)).Sublist
      ((processTarget st t).lines.filter (fun s => !matchCase s)) := by
  cases h : patchGate st.lines st.modified t with
  | none =>
    simp only [processTarget, h]
    exact List.Sublist.refl _
  | some ce =>
    obtain ⟨c, e⟩ := ce
    obtain ⟨_, hlen, _, _, _, hfc, _, _, _⟩ := patchGate_some_inv _ _ _ _ _ h
    obtain ⟨_, hmc, _⟩ := findCaseFrom_some st.lines _ _ hfc
    simp only [processTarget, h, applyPatch]
    have h1 : ((st.lines.set c (newCaseLineOf (st.lines.getD c ""))).filter
          (fun s => !matchCase s))
        = st.lines.filter (fun s => !matchCase s) :=
      filter_set_dropped _ _ _ _ (by rw [matchCase_newCaseLineOf _ hmc]; rfl)
        (by rw [hmc]; rfl)
    rw [← h1]
    exact (sublist_insertAt _ _ _).filter _

theorem filter_noncase_runTargets (ts : List Nat) : ∀ st : PatchState,
    (st.lines.filter (fun s => !matchCase s)).Sublist
      ((runTargets st ts).lines.filter (fun s => !matchCase s)) := by
  induction ts with
  | nil => intro st; exact List.Sublist.refl _
  | cons t ts ih =>
    intro st
    rw [runTargets_cons]
    exact (filter_noncase_step st t).trans (ih (processTarget st t))

theorem processTarget_skip_nodecl (st : PatchState) (t : Nat)
    (h : hasDecl (st.lines.getD (t - 1) "") = false) : processTarget st t = st := by
  have hg : patchGate st.lines st.modified t = none := by
    unfold patchGate
    by_cases h1 : t = 0 ∨ st.lines.length < t ∨ t ∈ st.modified
    · rw [if_pos h1]
    · rw [if_neg h1, if_neg (by rw [h]; simp)]
  simp [processTarget, hg]

theorem runTargets_skip_nodecl (ts : List Nat) : ∀ st : PatchState,
    (∀ n ∈ ts, hasDecl (st.lines.getD (n - 1) "") = false) → runTargets st ts = st := by
  induction ts with
  | nil => intro st _; rfl
  | cons t ts ih =>
    intro st h
    rw [runTargets_cons, processTarget_skip_nodecl st t (h t (by simp))]
    exact ih st (fun n hn => h n (by simp [hn]))

/-- Claim C3, amended: a target line lacking a declaration keyword never triggers a patch, and any line not matching the case-label pattern keeps its content, persisting in order into the output; however a keyword-less target line that happens to be the case-label anchor of a block patched for a different target does get rewritten. -/
theorem c3_conservativeness_amended (lines : List String) (nums : List Nat) :
    (lines.filter (fun s => !matchCase s)).Sublist (fix_case_block lines nums).1 ∧
      ((∀ n ∈ nums, hasDecl (lines.getD (n - 1) "") = false) →
        fix_case_block lines nums = (lines, 0)) := by
  constructor
  · have h1 := filter_noncase_runTargets (sortAsc nums) ⟨lines, [], 0⟩
    have h2 : ((runTargets ⟨lines, [], 0⟩ (sortAsc nums)).lines.filter
        (fun s => !matchCase s)).Sublist (runTargets ⟨lines, [], 0⟩ (sortAsc nums)).lines :=
      List.filter_sublist _
    exact h1.trans h2
  · intro h
    have hs : ∀ n ∈ sortAsc nums, hasDecl (lines.getD (n - 1) "") = false := by
      intro n hn
      exact h n ((mem_sortAsc n nums).mp hn)
    unfold fix_case_block
    rw [runTargets_skip_nodecl (sortAsc nums) ⟨lines, [], 0⟩ hs]

/-- Witness for the amended conservativeness claim: a file whose single target line has no declaration keyword is returned unchanged with zero count. -/
theorem c3_witness : fix_case_block ["x = 1;\n"] [1] = (["x = 1;\n"], 0) :=
  (c3_conservativeness_amended ["x = 1;\n"] [1]).2 (by decide)

/-- Input whose first target line has no declaration keyword but is the case anchor of the second target. -/
def kwlessInput : List String :=
  ["case A:\n",
   "  const x = 1;\n",
   "  break;\n"]

/-- Counterexample to claim C3 as stated: line 1 is listed as a target and contains no declaration keyword, yet the pass rewrites it, because it is the case-label anchor of the qualifying target on line 2; its original content does not survive anywhere in the output. -/
theorem c3_keywordless_target_mutated_counterexample :
    hasDecl (kwlessInput.getD 0 "") = false ∧
      (fix_case_block kwlessInput [1, 2]).1.getD 0 "" ≠ kwlessInput.getD 0 "" ∧
      kwlessInput.getD 0 "" ∉ (fix_case_block kwlessInput [1, 2]).1 := by
  decide

/-
  Claim C4: the modified-line set and overlapping targets.
-/

theorem processTarget_skip_mem (st : PatchState) (t : Nat) (h : t ∈ st.modified) :
    processTarget st t = st := by
  have hg : patchGate st.lines st.modified t = none := by
    unfold patchGate
    rw [if_pos (Or.inr (Or.inr h))]
  simp [processTarget, hg]

theorem sortAsc_pair (t1 t2 : Nat) (h : t1 ≤ t2) : sortAsc [t1, t2] = [t1, t2] := by
  simp [sortAsc, insertSorted, h]

/-- Claim C4: after a patch with anchor index c and end index e, the modified-line set is exactly the 1-based range from the anchor line to one past the inserted closing line, and a second target inside that range is skipped, so two targets inside one block produce exactly one inserted delimiter pair. -/
theorem c4_modified_range_skip (lines : List String) (t1 t2 c e : Nat)
    (hg : patchGate lines [] t1 = some (c, e)) (h12 : t1 ≤ t2)
    (hin : c + 1 ≤ t2 ∧ t2 ≤ e + 2) :
    (∀ n, n ∈ (processTarget ⟨lines, [], 0⟩ t1).modified ↔ c + 1 ≤ n ∧ n ≤ e + 2) ∧
      fix_case_block lines [t1, t2] = fix_case_block lines [t1] ∧
      (fix_case_block lines [t1, t2]).2 = 1 := by
  obtain ⟨ht0, hlen, _, _, ht1, hfc, _, _, he⟩ := patchGate_some_inv _ _ _ _ _ hg
  obtain ⟨hce, _, _⟩ := findCaseFrom_some lines _ _ hfc
  have ht2 : 2 ≤ t1 := by omega
  have hee : t1 ≤ e := he ▸ findEnd_ge lines _ t1
  have hcee : c < e := by omega
  have hmem : ∀ n, n ∈ (processTarget ⟨lines, [], 0⟩ t1).modified ↔ c + 1 ≤ n ∧ n ≤ e + 2 := by
    intro n
    simp only [processTarget, hg, List.nil_append, mem_natRange]
    omega
  refine ⟨hmem, ?_, ?_⟩
  · have hrun : runTargets ⟨lines, [], 0⟩ [t1, t2] = processTarget ⟨lines, [], 0⟩ t1 := by
      rw [show ([t1, t2] : List Nat) = t1 :: [t2] from rfl, runTargets_cons]
      rw [show runTargets (processTarget ⟨lines, [], 0⟩ t1) [t2]
            = processTarget (processTarget ⟨lines, [], 0⟩ t1) t2 from rfl]
      exact processTarget_skip_mem _ _ ((hmem t2).mpr hin)
    unfold fix_case_block
    rw [sortAsc_pair t1 t2 h12, hrun]
    rfl
  · unfold fix_case_block
    rw [sortAsc_pair t1 t2 h12]
    rw [show runTargets ⟨lines, [], 0⟩ [t1, t2]
          = processTarget (processTarget ⟨lines, [], 0⟩ t1) t2 from rfl]
    rw [processTarget_skip_mem _ _ ((hmem t2).mpr hin)]
    simp [processTarget, hg]

/-- Input with two declarations inside one case block. -/
def twoDeclInput : List String :=
  ["case A:\n",
   "  const x = 1;\n",
   "  let y = 2;\n",
   "  break;\n"]

/-- Witness for claim C4: with both declaration lines of one case block targeted, the run equals the single-target run and reports exactly one change. -/
theorem c4_witness :
    (2 : Nat) ∈ (processTarget ⟨twoDeclInput, [], 0⟩ 2).modified ∧
      fix_case_block twoDeclInput [2, 3] = fix_case_block twoDeclInput [2] ∧
      (fix_case_block twoDeclInput [2, 3]).2 = 1 := by
  have h := c4_modified_range_skip twoDeclInput 2 3 0 4 (by decide) (by decide) (by decide)
  exact ⟨(h.1 2).mpr (by decide), h.2.1, h.2.2⟩

/-
  Claims C7 and C8: write behavior and the missing-file path.
-/

theorem processTarget_changes_mono (st : PatchState) (t : Nat) :
    st.changes ≤ (processTarget st t).changes := by
  cases h : patchGate st.lines st.modified t with
  | none => simp [processTarget, h]
  | some ce =>
    obtain ⟨c, e⟩ := ce
    simp [processTarget, h]

theorem processTarget_lines_of_changes_eq (st : PatchState) (t : Nat)
    (h : (processTarget st t).changes = st.changes) : (processTarget st t).lines = st.lines := by
  cases hg : patchGate st.lines st.modified t with
  | none => simp [processTarget, hg]
  | some ce =>
    obtain ⟨c, e⟩ := ce
    simp [processTarget, hg] at h

theorem runTargets_changes_mono (ts : List Nat) : ∀ st : PatchState,
    st.changes ≤ (runTargets st ts).changes := by
  induction ts with
  | nil => intro st; exact Nat.le_refl _
  | cons t ts ih =>
    intro st
    rw [runTargets_cons]
    exact Nat.le_trans (processTarget_changes_mono st t) (ih (processTarget st t))

theorem runTargets_lines_of_changes_eq (ts : List Nat) : ∀ st : PatchState,
    (runTargets st ts).changes = st.changes → (runTargets st ts).lines = st.lines := by
  induction ts with
  | nil => intro st _; rfl
  | cons t ts ih =>
    intro st h
    rw [runTargets_cons] at h ⊢
    have h1 : st.changes ≤ (processTarget st t).changes := processTarget_changes_mono st t
    have h2 : (processTarget st t).changes ≤ (runTargets (processTarget st t) ts).changes :=
      runTargets_changes_mono ts _
    have heq : (processTarget st t).changes = st.changes := by omega
    rw [ih (processTarget st t) (by omega), processTarget_lines_of_changes_eq st t heq]

/-- Claim C7: the file is written back exactly when the pass reports at least one change, and with a zero count the disk content and even the in-memory line list are the untouched input. -/
theorem c7_write_iff_changes (lines : List String) (nums : List Nat) :
    ((fix_case_block_io (some lines) nums).wrote = true ↔
        0 < (fix_case_block_io (some lines) nums).count) ∧
      ((fix_case_block_io (some lines) nums).count = 0 →
        (fix_case_block_io (some lines) nums).disk = some lines ∧
          (fix_case_block lines nums).1 = lines) := by
  by_cases h : 0 < (fix_case_block lines nums).2
  · constructor
    · simp [fix_case_block_io, h]
    · intro hc
      simp [fix_case_block_io, h] at hc
      omega
  · have hc0 : (fix_case_block lines nums).2 = 0 := by omega
    have hl : (fix_case_block lines nums).1 = lines := by
      have := runTargets_lines_of_changes_eq (sortAsc nums) ⟨lines, [], 0⟩
      have hch : (runTargets ⟨lines, [], 0⟩ (sortAsc nums)).changes = 0 := by
        simpa [fix_case_block] using hc0
      simpa [fix_case_block] using this hch
    constructor
    · simp [fix_case_block_io, h]
    · intro _
      simp [fix_case_block_io, h, hl]

/-- Witness for claim C7: a file with one non-qualifying target gets zero changes, no write, and an untouched line list. -/
theorem c7_witness :
    (fix_case_block_io (some ["a\n"]) [1]).disk = some ["a\n"] ∧
      (fix_case_block ["a\n"] [1]).1 = ["a\n"] :=
  (c7_write_iff_changes ["a\n"] [1]).2 (by decide)

/-- Claim C8: a missing file is reported, not written, counted as zero changes, and the batch total over the remaining files is unaffected, so the driver continues. -/
theorem c8_missing_file (nums : List Nat) (rest : List (Option (List String) × List Nat)) :
    fix_case_block_io none nums = ⟨none, false, true, 0⟩ ∧
      runBatch ((none, nums) :: rest) = runBatch rest := by
  constructor
  · rfl
  · simp [runBatch, fix_case_block_io]

/-
  Claim C6: locality of one patch.
-/

/-- Claim C6: a patched target with anchor index c and end index e only rewrites the anchor line and inserts one closing line at the end index; every other line keeps its content, lines before the insertion point at their position and lines from the insertion point on shifted down by exactly one. -/
theorem c6_locality (L : List String) (M : List Nat) (ch : Nat) (t c e : Nat)
    (hg : patchGate L M t = some (c, e)) :
    (processTarget ⟨L, M, ch⟩ t).lines = applyPatch L c e ∧
      (∀ i, i < e → i ≠ c → (applyPatch L c e).getD i "" = L.getD i "") ∧
      (∀ i, e ≤ i → (applyPatch L c e).getD (i + 1) "" = L.getD i "") ∧
      (applyPatch L c e).getD c "" = newCaseLineOf (L.getD c "") ∧
      (applyPatch L c e).getD e "" = closeLineOf (indentOf (L.getD c "")) := by
  obtain ⟨ht0, hlen, _, _, ht1, hfc, _, _, he⟩ := patchGate_some_inv _ _ _ _ _ hg
  obtain ⟨hce, _, _⟩ := findCaseFrom_some L _ _ hfc
  have ht2 : 2 ≤ t := by omega
  have hee : t ≤ e := he ▸ findEnd_ge L _ t
  have hele : e ≤ L.length := he ▸ findEnd_le L _ t hlen
  have hclen : c < L.length := by omega
  have hsetlen : (L.set c (newCaseLineOf (L.getD c ""))).length = L.length := by
    rw [List.length_set]
  refine ⟨by simp [processTarget, hg], ?_, ?_, ?_, ?_⟩
  · intro i hie hic
    unfold applyPatch
    rw [getD_insertAt_lt e i _ "" _ hie (by omega)]
    exact getD_set_ne L c i _ "" hic
  · intro i hei
    unfold applyPatch
    rw [getD_insertAt_ge e i _ "" _ hei]
    exact getD_set_ne L c i _ "" (by omega)
  · unfold applyPatch
    rw [getD_insertAt_lt e c _ "" _ (by omega) (by omega)]
    exact getD_set_self L c _ "" hclen
  · unfold applyPatch
    rw [getD_insertAt_self e _ "" _ (by omega)]

/-- Four lines forming one case block, used to instantiate the locality claim. -/
def locInput : List String :=
  ["case A:\n",
   "  const x = 1;\n",
   "  doWork(x);\n",
   "  break;\n"]

/-- Witness for claim C6 at a concrete block: interior lines keep their content, the anchor is rewritten, and the closing line sits at the end index. -/
theorem c6_witness :
    (processTarget ⟨locInput, [], 0⟩ 2).lines = applyPatch locInput 0 4 ∧
      (applyPatch locInput 0 4).getD 1 "" = locInput.getD 1 "" ∧
      (applyPatch locInput 0 4).getD 3 "" = locInput.getD 3 "" ∧
      (applyPatch locInput 0 4).getD 0 "" = newCaseLineOf (locInput.getD 0 "") ∧
      (applyPatch locInput 0 4).getD 4 "" = closeLineOf (indentOf (locInput.getD 0 "")) := by
  have h := c6_locality locInput [] 0 2 0 4 (by decide)
  exact ⟨h.1, h.2.1 1 (by decide) (by decide), h.2.1 3 (by decide) (by decide),
    h.2.2.2.1, h.2.2.2.2⟩

/-
  Claim C10: the blank-line collapse of fix_file.
-/

theorem fix_file_snd (lines : List String) (lmap : List (Nat × String × String)) :
    (fix_file lines lmap).2 = (fix_file_core lines lmap).changes := by
  simp only [fix_file]
  split
  · rfl
  · rfl

theorem cleanLines_head_true :
    ∀ l : List String, ∀ x, (cleanLines true l).head? = some x → isBlankLine x = false := by
  intro l
  induction l with
  | nil => intro x h; simp [cleanLines] at h
  | cons a r ih =>
    intro x h
    by_cases hb : isBlankLine a = true
    · rw [cleanLines, if_pos (by simp [hb])] at h
      exact ih x h
    · rw [cleanLines, if_neg (by simp [hb])] at h
      simp only [List.head?_cons, Option.some_inj] at h
      subst h
      simpa using hb

theorem cleanLines_chain :
    ∀ (l : List String) (prev : Bool),
      List.Chain' (fun a b => ¬(isBlankLine a = true ∧ isBlankLine b = true))
        (cleanLines prev l) := by
  intro l
  induction l with
  | nil => intro prev; simp [cleanLines]
  | cons a r ih =>
    intro prev
    by_cases hb : (isBlankLine a && prev) = true
    · rw [cleanLines, if_pos hb]
      exact ih prev
    · rw [cleanLines, if_neg hb]
      rw [List.chain'_cons']
      refine ⟨?_, ih (isBlankLine a)⟩
      intro y hy
      by_cases hba : isBlankLine a = true
      · rw [hba] at hy
        have := cleanLines_head_true r y hy
        simp [this]
      · simp [hba]

/-- Claim C10: whenever fix_file reports at least one change, the written content is the blank-collapsed line list, and thus no two consecutive lines of the written file are both blank, anywhere in the file. -/
theorem c10_blank_collapse (lines : List String) (lmap : List (Nat × String × String))
    (h : 0 < (fix_file lines lmap).2) :
    (fix_file lines lmap).1 = some (cleanLines false (fix_file_core lines lmap).lines) ∧
      List.Chain' (fun a b => ¬(isBlankLine a = true ∧ isBlankLine b = true))
        ((fix_file lines lmap).1.getD []) := by
  have hch : 0 < (fix_file_core lines lmap).changes := by
    rw [← fix_file_snd]
    exact h
  have h1 : (fix_file lines lmap).1 = some (cleanLines false (fix_file_core lines lmap).lines) := by
    unfold fix_file
    rw [if_pos hch]
  refine ⟨h1, ?_⟩
  rw [h1]
  exact cleanLines_chain _ false

/-- Input for the blank-collapse witness: a marker comment, a retypable line, and an unrelated run of two blank lines. -/
def anyFixInput : List String :=
  ["// eslint-disable-next-line @typescript-eslint/no-explicit-any\n",
   "let x: any;\n",
   "\n",
   "\n",
   "a\n"]

/-- Witness for claim C10: a run with two changes writes the collapsed list and the written file has no adjacent blank pair. -/
theorem c10_witness :
    (fix_file anyFixInput [(1, "any", "unknown")]).1
        = some (cleanLines false (fix_file_core anyFixInput [(1, "any", "unknown")]).lines) ∧
      List.Chain' (fun a b => ¬(isBlankLine a = true ∧ isBlankLine b = true))
        ((fix_file anyFixInput [(1, "any", "unknown")]).1.getD []) :=
  c10_blank_collapse anyFixInput [(1, "any", "unknown")] (by decide)

/-
  Claim C1: idempotency of the patch pass.
-/

/-- Input with a nested, deeper-indented case label inside the patched block. -/
def nestedCaseInput : List String :=
  ["case A:\n",
   "  const x = 1;\n",
   "    case inner:\n",
   "      const y = 2;\n",
   "  break;\n"]

/-- Counterexample to claim C1 as stated: with targets 2 and 4, the first pass patches the outer block and absorbs target 4 into the modified-line set; the second pass then anchors target 4 to the nested unbraced case label and patches again, so the second pass reports one change, not zero, and changes the line sequence. -/
theorem c1_second_pass_changes_counterexample :
    (fix_case_block nestedCaseInput [2, 4]).2 = 1 ∧
      (fix_case_block (fix_case_block nestedCaseInput [2, 4]).1 [2, 4]).2 = 1 ∧
      (fix_case_block (fix_case_block nestedCaseInput [2, 4]).1 [2, 4]).1
        ≠ (fix_case_block nestedCaseInput [2, 4]).1 := by
  decide

/-- Claim C1, amended: with a single target line the pass is idempotent, for every file content; a second pass on the output of the first with the same single target leaves the line sequence unchanged and returns zero. For multi-target lists a second pass can still report changes, as a target absorbed by the modified-line set in the first pass may anchor to a nested case label in the second. -/
theorem c1_single_target_idempotent (lines : List String) (t : Nat) :
    fix_case_block (fix_case_block lines [t]).1 [t] = ((fix_case_block lines [t]).1, 0) := by
  have hfix : ∀ L : List String,
      fix_case_block L [t]
        = ((processTarget ⟨L, [], 0⟩ t).lines, (processTarget ⟨L, [], 0⟩ t).changes) :=
    fun L => rfl
  cases hg : patchGate lines [] t with
  | none =>
    have h1 : processTarget ⟨lines, [], 0⟩ t = ⟨lines, [], 0⟩ := by
      simp [processTarget, hg]
    have h2 : fix_case_block lines [t] = (lines, 0) := by rw [hfix lines, h1]
    rw [h2]
    exact h2
  | some ce =>
    obtain ⟨c, e⟩ := ce
    obtain ⟨ht0, hlen, _, hdecl, ht1, hfc, hbr, _, he⟩ := patchGate_some_inv _ _ _ _ _ hg
    obtain ⟨hce, hmc, hno⟩ := findCaseFrom_some lines _ _ hfc
    have ht2 : 2 ≤ t := by omega
    have hee : t ≤ e := he ▸ findEnd_ge lines _ t
    have hele : e ≤ lines.length := he ▸ findEnd_le lines _ t hlen
    have hclen : c < lines.length := by omega
    have hsetlen : (lines.set c (newCaseLineOf (lines.getD c ""))).length = lines.length := by
      rw [List.length_set]
    have hfix1 : fix_case_block lines [t] = (applyPatch lines c e, 1) := by
      rw [hfix lines]
      simp [processTarget, hg]
    have hlenout : (applyPatch lines c e).length = lines.length + 1 := by
      unfold applyPatch
      rw [length_insertAt, hsetlen]
    have hgetlt : ∀ i, i < e → i ≠ c →
        (applyPatch lines c e).getD i "" = lines.getD i "" := by
      intro i hie hic
      unfold applyPatch
      rw [getD_insertAt_lt e i _ "" _ hie (by omega)]
      exact getD_set_ne lines c i _ "" hic
    have houtc : (applyPatch lines c e).getD c "" = newCaseLineOf (lines.getD c "") := by
      unfold applyPatch
      rw [getD_insertAt_lt e c _ "" _ (by omega) (by omega)]
      exact getD_set_self lines c _ "" hclen
    have hdecl2 : hasDecl ((applyPatch lines c e).getD (t - 1) "") = true := by
      rw [hgetlt (t - 1) (by omega) (by omega)]
      exact hdecl
    have hfc2 : findCaseFrom (applyPatch lines c e) (t - 2) = some c := by
      apply findCaseFrom_eq_some _ _ _ hce
      · rw [houtc]
        exact matchCase_newCaseLineOf _ hmc
      · intro i h1 h2
        rw [hgetlt i (by omega) (by omega)]
        exact hno i h1 h2
    have hbr2 : hasBrace ((applyPatch lines c e).getD c "") = true := by
      rw [houtc]
      exact hasBrace_newCaseLineOf _
    have hg2 : patchGate (applyPatch lines c e) [] t = none := by
      cases hX : patchGate (applyPatch lines c e) [] t with
      | none => rfl
      | some ce2 =>
        obtain ⟨c2, e2⟩ := ce2
        obtain ⟨_, _, _, _, _, hfcX, hbrX, _, _⟩ := patchGate_some_inv _ _ _ _ _ hX
        rw [hfc2] at hfcX
        have hcc : c = c2 := Option.some_inj.mp hfcX
        subst hcc
        rw [hbrX] at hbr2
        exact absurd hbr2 (by simp)
    have h1 : processTarget ⟨applyPatch lines c e, [], 0⟩ t = ⟨applyPatch lines c e, [], 0⟩ := by
      simp [processTarget, hg2]
    rw [hfix1]
    show fix_case_block (applyPatch lines c e) [t] = (applyPatch lines c e, 0)
    rw [hfix (applyPatch lines c e), h1]

end Sonigraph
